import Mathlib

/-!
Verification of the shuffle-writer / variance excerpt of eBay-kylin/datafusion.

Two subsystems are embedded:

* `VarianceAccumulator` from
  `datafusion/src/physical_plan/expressions/variance.rs`: the Welford
  online-variance accumulator with Chan-style pairwise merge.  The `f64`
  fields are modelled as exact rationals (the properties under study are
  branch-structure and formula properties, not rounding properties); the
  `u64` count is a natural number.  A nullable `Float64` array slot is a
  pair `(stored value, is-null flag)`, exactly what `arr.value(i)` /
  `values.is_null(i)` observe in the source.

* `ShuffleWriterExec::execute_shuffle_write` from
  `ballista/rust/core/src/execution_plans/shuffle_writer.rs`: the hash
  repartitioning loop, sink creation, and the returned
  `ShuffleWritePartition` records, together with the three sink variants
  and their counters.  Rows are an arbitrary type; the combined
  `create_hashes` value of a row (computed over all key-expression arrays
  with the fixed seed tuple `(0,0,0,0)`) is abstracted as a function
  `hashRow : Row → ℕ`, and the per-column in-memory byte footprint of a
  batch as `bytesOf`.  Fallible operations return `Except String`.
-/

set_option autoImplicit false

namespace DFVerify

/-- Whether an accumulator computes sample or population statistics
(`StatsType` from `expressions/mod.rs`, consumed by `variance.rs`). -/
inductive StatsType where
  | Sample
  | Population
deriving DecidableEq

/-- Shallow embedding of `VarianceAccumulator`
(`variance.rs`, lines 215-221), fields in source order. -/
structure VarianceAccumulator where
  m2 : ℚ
  mean : ℚ
  count : ℕ
  stats_type : StatsType
deriving DecidableEq

/-- The effective divisor computed at the top of
`VarianceAccumulator::evaluate` (`variance.rs`, lines 424-433): `count`
for `Population`; for `Sample`, `count - 1` when `count > 0` and `count`
otherwise (the source guards the `u64` subtraction). -/
def VarianceAccumulator.divisor (acc : VarianceAccumulator) : ℕ :=
  match acc.stats_type with
  | StatsType.Population => acc.count
  | StatsType.Sample => if acc.count > 0 then acc.count - 1 else acc.count

/-- Embedding of `VarianceAccumulator::evaluate` (`variance.rs`, lines 423-446).
`Result<ScalarValue>` is embedded as `Except String (Option ℚ)`:
`.ok none` is `ScalarValue::Float64(None)`, `.ok (some v)` is
`ScalarValue::Float64(Some(v))`, `.error msg` is the
`DataFusionError::Internal(msg)` return.  The branch order is the
source's: the `count <= 1` test comes before the `self.count == 0`
test. -/
def VarianceAccumulator.evaluate (acc : VarianceAccumulator) :
    Except String (Option ℚ) :=
  let count := acc.divisor
  if count ≤ 1 then
    Except.error "At least two values are needed to calculate variance"
  else if acc.count = 0 then
    Except.ok none
  else
    Except.ok (some (acc.m2 / (count : ℚ)))

/-- One iteration of the loop body of `VarianceAccumulator::update_batch`
(`variance.rs`, lines 260-275) on the post-cast array slot
`e = (stored value, is-null)`: the slot is skipped exactly when
`value == 0_f64 && values.is_null(i)`; otherwise the Welford step is
applied with the source's expressions. -/
def VarianceAccumulator.updateOne (acc : VarianceAccumulator)
    (e : ℚ × Bool) : VarianceAccumulator :=
  if e.1 = 0 ∧ e.2 = true then acc
  else
    let new_count := acc.count + 1
    let delta1 := e.1 - acc.mean
    let new_mean := delta1 / (new_count : ℚ) + acc.mean
    let delta2 := e.1 - new_mean
    let new_m2 := acc.m2 + delta1 * delta2
    { acc with count := new_count, mean := new_mean, m2 := new_m2 }

/-- Embedding of `VarianceAccumulator::update_batch` (`variance.rs`, lines 256-278)
after the cast of the input column to `Float64`: the column is a list of
`(stored value, is-null)` slots, visited in order. -/
def VarianceAccumulator.update_batch (acc : VarianceAccumulator)
    (values : List (ℚ × Bool)) : VarianceAccumulator :=
  values.foldl VarianceAccumulator.updateOne acc

/-- Embedding of `VarianceAccumulator::merge` (`variance.rs`, lines 339-421) in the
reachable case where the three incoming state scalars are
`UInt64(Some count)`, `Float64(Some mean)`, `Float64(Some m2)` (any other
variant is `unreachable!()` in the source). -/
def VarianceAccumulator.merge (acc : VarianceAccumulator) (count : ℕ)
    (mean m2 : ℚ) : VarianceAccumulator :=
  if count = 0 then acc
  else if acc.count = 0 then
    { acc with count := count, mean := mean, m2 := m2 }
  else
    let new_count := acc.count + count
    let new_mean := acc.mean * (acc.count : ℚ) / (new_count : ℚ) +
      mean * (count : ℚ) / (new_count : ℚ)
    let delta := acc.mean - mean
    let new_m2 :=
      delta * delta * ((acc.count : ℚ) * (count : ℚ) / (new_count : ℚ)) +
        acc.m2 + m2
    { acc with count := new_count, mean := new_mean, m2 := new_m2 }

/-- One iteration of the loop body of `VarianceAccumulator::merge_batch`
(`variance.rs`, lines 285-301) on state-column row `s = (c, mean, m2)`. -/
def VarianceAccumulator.mergeOne (acc : VarianceAccumulator)
    (s : ℕ × ℚ × ℚ) : VarianceAccumulator :=
  if s.1 = 0 then acc
  else
    let new_count := acc.count + s.1
    let new_mean := acc.mean * (acc.count : ℚ) / (new_count : ℚ) +
      s.2.1 * (s.1 : ℚ) / (new_count : ℚ)
    let delta := acc.mean - s.2.1
    let new_m2 := acc.m2 + s.2.2 +
      delta * delta * (acc.count : ℚ) * (s.1 : ℚ) / (new_count : ℚ)
    { acc with count := new_count, mean := new_mean, m2 := new_m2 }

/-- Embedding of `VarianceAccumulator::merge_batch` (`variance.rs`, lines 280-303):
the three state columns, rows visited in order. -/
def VarianceAccumulator.merge_batch (acc : VarianceAccumulator)
    (states : List (ℕ × ℚ × ℚ)) : VarianceAccumulator :=
  states.foldl VarianceAccumulator.mergeOne acc

/-- The Welford step exactly as §4.4 of the specification writes it, for
comparison with the source's `updateOne`. -/
def welfordSpecStep (acc : VarianceAccumulator) (x : ℚ) :
    VarianceAccumulator :=
  let cnew := acc.count + 1
  let d1 := x - acc.mean
  let munew := acc.mean + d1 / (cnew : ℚ)
  let d2 := x - munew
  { acc with count := cnew, mean := munew, m2 := acc.m2 + d1 * d2 }

/-- The pairwise merge exactly as claim C6 / §4.4 of the specification
writes it: skip when the incoming count is zero, absorb verbatim when the
accumulator is empty, else the Chan combination. -/
def mergeSpec (acc : VarianceAccumulator) (c2 : ℕ) (mean2 m22 : ℚ) :
    VarianceAccumulator :=
  if c2 = 0 then acc
  else if acc.count = 0 then
    { acc with count := c2, mean := mean2, m2 := m22 }
  else
    let c := acc.count + c2
    { acc with
        count := c
        mean := (acc.mean * (acc.count : ℚ) + mean2 * (c2 : ℚ)) / (c : ℚ)
        m2 := acc.m2 + m22 +
          (acc.mean - mean2) ^ 2 * ((acc.count : ℚ) * (c2 : ℚ) / (c : ℚ)) }



/-! ## Shuffle writer: data model -/

/-- Embedding of `serde::scheduler::ExecutorMeta` as consumed by the writer. -/
structure ExecutorMeta where
  id : String
  host : String
  port : ℕ
deriving DecidableEq

/-- Embedding of `OutputLocation` (`shuffle_writer.rs`, lines 87-91). -/
inductive OutputLocation where
  | LocalDir (workDir : String)
  | Executors (execs : List ExecutorMeta)
deriving DecidableEq

/-- Embedding of `serde::protobuf::ShuffleWritePartition`: the per-output-partition
metadata record returned by `execute_shuffle_write`. -/
structure ShuffleWritePartition where
  partition_id : ℕ
  path : String
  num_batches : ℕ
  num_rows : ℕ
  num_bytes : ℕ
deriving DecidableEq

/-- The state a sink carries while `execute_shuffle_write` runs: its path
(an absolute file path for the File variant, `""` for Flight/Local), the
batches written so far in order, and the three counters.  All three
variants of the source's `ShuffleWriter` enum update the counters the same
way on a successful write (see `FileShuffleWriter.write` and friends
below), which is all the execution-level claims depend on.  A batch is
its list of rows; `bytesOf` abstracts the summed per-column
`get_array_memory_size` of a batch. -/
structure ExecWriter (Row : Type) where
  path : String
  written : List (List Row)
  num_batches : ℕ
  num_rows : ℕ
  num_bytes : ℕ
deriving DecidableEq

/-- A successful `ShuffleWriter::write` of one materialized batch: append
the batch and bump the three counters. -/
def ExecWriter.write {Row : Type} (bytesOf : List Row → ℕ)
    (w : ExecWriter Row) (batch : List Row) : ExecWriter Row :=
  { w with
      written := w.written ++ [batch]
      num_batches := w.num_batches + 1
      num_rows := w.num_rows + batch.length
      num_bytes := w.num_bytes + bytesOf batch }

/-! ## Shuffle writer: hash repartitioning -/

/-- One step of the index-building loop (`shuffle_writer.rs`, lines
351-354): row number `p.1` whose combined hash is `p.2` is appended to
bucket `p.2 % n`. -/
def pushIdx (n : ℕ) (acc : List (List ℕ)) (p : ℕ × ℕ) : List (List ℕ) :=
  acc.set (p.2 % n) (acc.getD (p.2 % n) [] ++ [p.1])

/-- The `indices` vector built for one input batch (`shuffle_writer.rs`,
lines 350-354): `n` buckets, bucket `h % n` collecting, in row order, the
row numbers whose combined hash is `h`. -/
def buildIndices (hashes : List ℕ) (n : ℕ) : List (List ℕ) :=
  hashes.enum.foldl (pushIdx n) (List.replicate n [])

/-- The take kernel applied to every column with one bucket's index list
(`shuffle_writer.rs`, lines 360-369), at row granularity: gather the rows
at positions `idx` in list order; an out-of-range index is an error, and
errors propagate left to right as the source's `collect::<Result<_>>`
does. -/
def takeRows {Row : Type} : List Row → List ℕ → Except String (List Row)
  | _, [] => Except.ok []
  | rows, i :: rest =>
    match rows.get? i with
    | some r => (takeRows rows rest).map fun out => r :: out
    | none => Except.error "take error: index out of bounds"

/-- Construction of the writer for output partition `p` on first use
(`shuffle_writer.rs`, lines 385-446): a File writer at
`<work_dir>/<job_id>/<stage_id>/<p>/data-<input_partition>.arrow` for
`LocalDir`; a Local writer (path `""`) when executors and local senders
are supplied; a Flight writer (path `""`) for executors without senders.
The source's `assert_eq!` arity checks are modelled as errors; local
senders are identified by number only.  Counters start at zero and
nothing has been written yet — the first write happens in `hashStep`. -/
def createWriter {Row : Type} (loc : OutputLocation)
    (localSenders : Option (List ℕ)) (jobId : String)
    (stageId inputPartition n p : ℕ) : Except String (ExecWriter Row) :=
  match loc with
  | OutputLocation.LocalDir workDir =>
      Except.ok
        { path := workDir ++ "/" ++ jobId ++ "/" ++ toString stageId ++
            "/" ++ toString p ++ "/data-" ++ toString inputPartition ++
            ".arrow",
          written := [], num_batches := 0, num_rows := 0, num_bytes := 0 }
  | OutputLocation.Executors execs =>
      if execs.length = n then
        match localSenders with
        | some senders =>
            if senders.length = n then
              Except.ok
                { path := "", written := [], num_batches := 0,
                  num_rows := 0, num_bytes := 0 }
            else
              Except.error "assertion failed: senders.len() == num_output_partitions"
        | none =>
            Except.ok
              { path := "", written := [], num_batches := 0,
                num_rows := 0, num_bytes := 0 }
      else
        Except.error "assertion failed: execs.len() == num_output_partitions"

/-- The body of the per-bucket loop (`shuffle_writer.rs`, lines 355-450)
for one `(output_partition, partition_indices)` pair `pr`: materialize the
bucket's batch with the take kernel and write it to that partition's
writer, constructing the writer first if it does not exist yet.  The
source runs this for *every* bucket, empty or not — its
`num_rows() > 0` guard is commented out (TODO, lines 378-379). -/
def hashStep {Row : Type} (bytesOf : List Row → ℕ)
    (create : ℕ → Except String (ExecWriter Row)) (batch : List Row)
    (ws : List (Option (ExecWriter Row))) (pr : ℕ × List ℕ) :
    Except String (List (Option (ExecWriter Row))) :=
  match takeRows batch pr.2 with
  | Except.error e => Except.error e
  | Except.ok out =>
    match ws.get? pr.1 with
    | some (some w) => Except.ok (ws.set pr.1 (some (w.write bytesOf out)))
    | some none =>
      match create pr.1 with
      | Except.error e => Except.error e
      | Except.ok w => Except.ok (ws.set pr.1 (some (w.write bytesOf out)))
    | none => Except.error "writer index out of bounds"

/-- The per-bucket loop itself: `hashStep` over the enumerated buckets,
stopping at the first error as the source's `?` does. -/
def hashLoop {Row : Type} (bytesOf : List Row → ℕ)
    (create : ℕ → Except String (ExecWriter Row)) (batch : List Row) :
    List (Option (ExecWriter Row)) → List (ℕ × List ℕ) →
      Except String (List (Option (ExecWriter Row)))
  | ws, [] => Except.ok ws
  | ws, pr :: rest =>
    match hashStep bytesOf create batch ws pr with
    | Except.ok ws2 => hashLoop bytesOf create batch ws2 rest
    | Except.error e => Except.error e

/-- Processing of one input batch on the hash path (`shuffle_writer.rs`,
lines 333-451): evaluate the key expressions against the batch and
combine them into one 64-bit hash per row (`create_hashes` with the fixed
seed tuple `(0,0,0,0)`, abstracted as the deterministic `hashRow`), build
the `n` index buckets, and run the per-bucket loop over all of them. -/
def processBatch {Row : Type} (bytesOf : List Row → ℕ)
    (create : ℕ → Except String (ExecWriter Row)) (hashRow : Row → ℕ)
    (n : ℕ) (ws : List (Option (ExecWriter Row))) (batch : List Row) :
    Except String (List (Option (ExecWriter Row))) :=
  hashLoop bytesOf create batch ws (buildIndices (batch.map hashRow) n).enum

/-- The input-stream loop of the hash path (`shuffle_writer.rs`, lines
325-451): start with `n` absent writers and process each input batch in
order. -/
def writeLoop {Row : Type} (bytesOf : List Row → ℕ)
    (create : ℕ → Except String (ExecWriter Row)) (hashRow : Row → ℕ)
    (n : ℕ) : List (Option (ExecWriter Row)) → List (List Row) →
      Except String (List (Option (ExecWriter Row)))
  | ws, [] => Except.ok ws
  | ws, batch :: rest =>
    match processBatch bytesOf create hashRow n ws batch with
    | Except.ok ws2 => writeLoop bytesOf create hashRow n ws2 rest
    | Except.error e => Except.error e

/-- The writer vector left by the hash path after the whole input stream
is consumed. -/
def execHashWriters {Row : Type} (bytesOf : List Row → ℕ)
    (create : ℕ → Except String (ExecWriter Row)) (hashRow : Row → ℕ)
    (n : ℕ) (batches : List (List Row)) :
    Except String (List (Option (ExecWriter Row))) :=
  writeLoop bytesOf create hashRow n (List.replicate n none) batches

/-- The final loop of the hash path (`shuffle_writer.rs`, lines 453-479):
for every position `i` holding a writer, finish it (the IPC footer flush
for File, a no-op for Flight/Local — always successful here) and emit one
`ShuffleWritePartition` with its path and final counters; positions
holding no writer emit nothing. -/
def recordsFrom {Row : Type} :
    ℕ → List (Option (ExecWriter Row)) → List ShuffleWritePartition
  | _, [] => []
  | i, none :: rest => recordsFrom (i + 1) rest
  | i, some w :: rest =>
      ⟨i, w.path, w.num_batches, w.num_rows, w.num_bytes⟩ ::
        recordsFrom (i + 1) rest

/-! ## Shuffle writer: pass-through path and entry point -/

/-- Embedding of `PartitionStats` as carried by the pass-through branch. -/
structure PartitionStats where
  num_rows : ℕ
  num_batches : ℕ
  num_bytes : ℕ
deriving DecidableEq

/-- Modelled from the spec: `utils::write_stream_to_disk` and
`utils::write_stream_to_flight` are outside this excerpt; per §4.1/§6 they
stream the whole sequence to one destination and return its statistics —
total rows, batch count, summed in-memory bytes.  The Executors+senders
arm computes the same three sums inline in the source (lines 245-265). -/
def streamStats {Row : Type} (bytesOf : List Row → ℕ)
    (batches : List (List Row)) : PartitionStats :=
  ⟨(batches.map List.length).sum, batches.length, (batches.map bytesOf).sum⟩

/-- The pass-through branch of `execute_shuffle_write`
(`shuffle_writer.rs`, lines 213-318): one sink chosen by
`(output_loc, local_senders)`, the whole stream written to it, and a
single `ShuffleWritePartition` with `partition_id = input_partition`
returned.  The `assert_eq!` arity checks of the Executors arm are
modelled as errors. -/
def execPassThrough {Row : Type} (loc : OutputLocation)
    (localSenders : Option (List ℕ)) (jobId : String)
    (stageId inputPartition : ℕ) (bytesOf : List Row → ℕ)
    (batches : List (List Row)) :
    Except String (List ShuffleWritePartition) :=
  match loc with
  | OutputLocation.LocalDir workDir =>
      let path := workDir ++ "/" ++ jobId ++ "/" ++ toString stageId ++
        "/" ++ toString inputPartition ++ "/data.arrow"
      let stats := streamStats bytesOf batches
      Except.ok [⟨inputPartition, path, stats.num_batches, stats.num_rows,
        stats.num_bytes⟩]
  | OutputLocation.Executors execs =>
      if execs.length = 1 then
        match localSenders with
        | some senders =>
            if senders.length = 1 then
              let stats := streamStats bytesOf batches
              Except.ok
                [⟨inputPartition, "", stats.num_batches,
                  stats.num_rows, stats.num_bytes⟩]
            else Except.error "assertion failed: senders.len() == 1"
        | none =>
            let stats := streamStats bytesOf batches
            Except.ok
              [⟨inputPartition, "", stats.num_batches,
                stats.num_rows, stats.num_bytes⟩]
      else Except.error "assertion failed: execs.len() == 1"

/-- The hash-partition descriptor `Partitioning::Hash(exprs, n)`.  The key
expressions and `create_hashes` with the fixed seed tuple `(0,0,0,0)` are
abstracted into the deterministic per-row combined hash `hashRow`. -/
structure HashPartitioning (Row : Type) where
  hashRow : Row → ℕ
  n : ℕ

/-- Embedding of `ShuffleWriterExec::execute_shuffle_write` (`shuffle_writer.rs`,
lines 203-487): the pass-through branch when no partitioning is
configured, the hash-repartitioning loop for `Hash(exprs, n)` followed by
the record-emitting loop. -/
def execute_shuffle_write {Row : Type} (part : Option (HashPartitioning Row))
    (loc : OutputLocation) (localSenders : Option (List ℕ)) (jobId : String)
    (stageId inputPartition : ℕ) (bytesOf : List Row → ℕ)
    (batches : List (List Row)) :
    Except String (List ShuffleWritePartition) :=
  match part with
  | none =>
      execPassThrough loc localSenders jobId stageId inputPartition bytesOf
        batches
  | some hp =>
    match execHashWriters bytesOf
        (createWriter loc localSenders jobId stageId inputPartition hp.n)
        hp.hashRow hp.n batches with
    | Except.ok ws => Except.ok (recordsFrom 0 ws)
    | Except.error e => Except.error e

/-! ## Shuffle writer: the three sink variants and their counters -/

/-- A record batch as the sink counters observe it: its row count
(`batch.num_rows()`) and the in-memory size of each of its column arrays
(`array.get_array_memory_size()`). -/
structure SinkBatch where
  numRows : ℕ
  colSizes : List ℕ
deriving DecidableEq

/-- Embedding of `batch.columns().iter().map(get_array_memory_size).sum()`. -/
def SinkBatch.bytes (b : SinkBatch) : ℕ := b.colSizes.sum

/-- Embedding of `FileShuffleWriter` (`shuffle_writer.rs`, lines 667-726); `written`
is the sequence of batches the IPC `FileWriter` accepted. -/
structure FileShuffleWriter where
  path : String
  written : List SinkBatch
  num_batches : ℕ
  num_rows : ℕ
  num_bytes : ℕ
deriving DecidableEq

/-- Embedding of `FileShuffleWriter::new` after a successful `File::create` and
`FileWriter::try_new`. -/
def FileShuffleWriter.new (path : String) : FileShuffleWriter :=
  ⟨path, [], 0, 0, 0⟩

/-- Embedding of `FileShuffleWriter::write` (lines 694-705).  `ipcOk` is the outcome
of the underlying `self.writer.write(&batch)` call: on failure the error
propagates through `?` and no counter moves; on success all three
counters are bumped. -/
def FileShuffleWriter.write (w : FileShuffleWriter) (b : SinkBatch)
    (ipcOk : Bool) : Except Unit FileShuffleWriter :=
  if ipcOk then
    Except.ok
      { w with
          written := w.written ++ [b]
          num_batches := w.num_batches + 1
          num_rows := w.num_rows + b.numRows
          num_bytes := w.num_bytes + b.bytes }
  else Except.error ()

/-- Embedding of `FlightShuffleWriter` (`shuffle_writer.rs`, lines 728-804): counters
plus the channel sender; `sent` is what actually entered the channel. -/
structure FlightShuffleWriter where
  num_batches : ℕ
  num_rows : ℕ
  num_bytes : ℕ
  sent : List SinkBatch
deriving DecidableEq

/-- Embedding of `FlightShuffleWriter::new` (the spawned push task is outside the
counter behaviour modelled here). -/
def FlightShuffleWriter.new : FlightShuffleWriter := ⟨0, 0, 0, []⟩

/-- Embedding of `FlightShuffleWriter::write` (lines 771-783).  `recvAlive` says
whether the channel receiver still exists.  The source's
`self.sender.send(..).await.ok()` discards the send error, so the result
is `Ok` and the counters are bumped either way; only the delivered list
depends on the receiver. -/
def FlightShuffleWriter.write (w : FlightShuffleWriter) (b : SinkBatch)
    (recvAlive : Bool) : Except Unit FlightShuffleWriter :=
  Except.ok
    { w with
        sent := if recvAlive then w.sent ++ [b] else w.sent
        num_batches := w.num_batches + 1
        num_rows := w.num_rows + b.numRows
        num_bytes := w.num_bytes + b.bytes }

/-- Embedding of `LocalShuffleWriter` (`shuffle_writer.rs`, lines 806-856): identical
counter behaviour to the Flight variant, wrapping an externally supplied
sender. -/
structure LocalShuffleWriter where
  num_batches : ℕ
  num_rows : ℕ
  num_bytes : ℕ
  sent : List SinkBatch
deriving DecidableEq

/-- Embedding of `LocalShuffleWriter::new`. -/
def LocalShuffleWriter.new : LocalShuffleWriter := ⟨0, 0, 0, []⟩

/-- Embedding of `LocalShuffleWriter::write` (lines 823-835): same shape as the Flight
variant — `send(..).await.ok()` discards the send error. -/
def LocalShuffleWriter.write (w : LocalShuffleWriter) (b : SinkBatch)
    (recvAlive : Bool) : Except Unit LocalShuffleWriter :=
  Except.ok
    { w with
        sent := if recvAlive then w.sent ++ [b] else w.sent
        num_batches := w.num_batches + 1
        num_rows := w.num_rows + b.numRows
        num_bytes := w.num_bytes + b.bytes }

/-- The tagged union `ShuffleWriter` (`shuffle_writer.rs`, lines
610-665). -/
inductive ShuffleWriter where
  | File : FileShuffleWriter → ShuffleWriter
  | Flight : FlightShuffleWriter → ShuffleWriter
  | Local : LocalShuffleWriter → ShuffleWriter
deriving DecidableEq

/-- Embedding of `ShuffleWriter::write` dispatch (lines 618-624).  The `io` flag is
the outcome of the variant's fallible interaction: the IPC write for
File, receiver aliveness for Flight/Local. -/
def ShuffleWriter.write (w : ShuffleWriter) (b : SinkBatch) (io : Bool) :
    Except Unit ShuffleWriter :=
  match w with
  | ShuffleWriter.File fw => (fw.write b io).map ShuffleWriter.File
  | ShuffleWriter.Flight fw => (fw.write b io).map ShuffleWriter.Flight
  | ShuffleWriter.Local lw => (lw.write b io).map ShuffleWriter.Local

/-- Embedding of `ShuffleWriter::num_batches` dispatch. -/
def ShuffleWriter.num_batches : ShuffleWriter → ℕ
  | ShuffleWriter.File fw => fw.num_batches
  | ShuffleWriter.Flight fw => fw.num_batches
  | ShuffleWriter.Local lw => lw.num_batches

/-- Embedding of `ShuffleWriter::num_rows` dispatch. -/
def ShuffleWriter.num_rows : ShuffleWriter → ℕ
  | ShuffleWriter.File fw => fw.num_rows
  | ShuffleWriter.Flight fw => fw.num_rows
  | ShuffleWriter.Local lw => lw.num_rows

/-- Embedding of `ShuffleWriter::num_bytes` dispatch. -/
def ShuffleWriter.num_bytes : ShuffleWriter → ℕ
  | ShuffleWriter.File fw => fw.num_bytes
  | ShuffleWriter.Flight fw => fw.num_bytes
  | ShuffleWriter.Local lw => lw.num_bytes

/-- A sequence of `write` calls against one sink, each carrying its batch
and the outcome of its fallible I/O.  Returns the final sink state
together with the batches whose `write` returned `Ok` — the successfully
written batches, in order. -/
def writeSeq : ShuffleWriter → List (SinkBatch × Bool) →
    ShuffleWriter × List SinkBatch
  | w, [] => (w, [])
  | w, c :: rest =>
    match w.write c.1 c.2 with
    | Except.ok w2 =>
        let r := writeSeq w2 rest
        (r.1, c.1 :: r.2)
    | Except.error _ => writeSeq w rest

/-- The state invariant of §3: an empty accumulator has zero mean and
zero m2. -/
def emptyInv (acc : VarianceAccumulator) : Prop :=
  acc.count = 0 → acc.mean = 0 ∧ acc.m2 = 0

/-- The rows a possibly-absent writer has written so far, as a
multiset. -/
def writerRows {Row : Type} : Option (ExecWriter Row) → Multiset Row
  | none => 0
  | some w => (w.written.join : Multiset Row)

/-- All rows written across the whole writer vector of the hash path. -/
def totalWrittenRows {Row : Type}
    (ws : List (Option (ExecWriter Row))) : Multiset Row :=
  (ws.map writerRows).sum





section VarianceTheorems

/-- C2 counterexample: a `VarianceAccumulator` with `count = 0` (either
kind) does *not* evaluate to a null double — `evaluate` takes the
`count <= 1` error branch first, so the `Float64(None)` branch is never
reached. -/
theorem C2_counterexample :
    VarianceAccumulator.evaluate ⟨0, 0, 0, StatsType.Sample⟩ ≠
        Except.ok none ∧
      VarianceAccumulator.evaluate ⟨0, 0, 0, StatsType.Population⟩ ≠
        Except.ok none ∧
      VarianceAccumulator.evaluate ⟨0, 0, 0, StatsType.Sample⟩ =
        Except.error "At least two values are needed to calculate variance" := by
  refine ⟨?_, ?_, rfl⟩ <;> intro h <;> simp [VarianceAccumulator.evaluate,
    VarianceAccumulator.divisor] at h

/-- C2 (amended): for any accumulator whose count is 0, `evaluate` returns
the "at least two values" error; moreover no accumulator at all can make
`evaluate` return `Float64(None)` — that branch of the source is dead
code. -/
theorem C2_count_zero_is_error :
    (∀ acc : VarianceAccumulator, acc.count = 0 →
        acc.evaluate =
          Except.error "At least two values are needed to calculate variance") ∧
      ∀ acc : VarianceAccumulator, acc.evaluate ≠ Except.ok none := by
  constructor
  · intro acc h
    unfold VarianceAccumulator.evaluate VarianceAccumulator.divisor
    cases hst : acc.stats_type <;> simp [h]
  · intro acc h
    unfold VarianceAccumulator.evaluate at h
    by_cases hle : acc.divisor ≤ 1
    · simp [hle] at h
    · have hcount : acc.count ≠ 0 := by
        intro h0
        apply hle
        unfold VarianceAccumulator.divisor
        cases acc.stats_type <;> simp [h0]
      simp [hle, hcount] at h

/-- Witness for C2's amended theorem at a concrete accumulator. -/
theorem C2_count_zero_is_error_witness :
    VarianceAccumulator.evaluate ⟨0, 0, 0, StatsType.Sample⟩ =
      Except.error "At least two values are needed to calculate variance" :=
  C2_count_zero_is_error.1 ⟨0, 0, 0, StatsType.Sample⟩ rfl

/-- C3: for every accumulator state, if the effective divisor is at most 1
then `evaluate` returns the error stating that at least two values are
needed, and if the effective divisor exceeds 1 then `evaluate` returns the
double `m2 / divisor`. -/
theorem C3_evaluate_divisor (acc : VarianceAccumulator) :
    (acc.divisor ≤ 1 →
        acc.evaluate =
          Except.error "At least two values are needed to calculate variance") ∧
      (1 < acc.divisor →
        acc.evaluate = Except.ok (some (acc.m2 / (acc.divisor : ℚ)))) := by
  constructor
  · intro h
    unfold VarianceAccumulator.evaluate
    simp [h]
  · intro h
    have hle : ¬ acc.divisor ≤ 1 := by omega
    have hcount : acc.count ≠ 0 := by
      intro h0
      have : acc.divisor = 0 := by
        unfold VarianceAccumulator.divisor
        cases acc.stats_type <;> simp [h0]
      omega
    unfold VarianceAccumulator.evaluate
    simp [hle, hcount]

/-- Witness for C3 at concrete accumulators on both branches:
`Sample` with count 3 and `m2 = 4` has divisor 2 and evaluates to `2`;
`Sample` with count 1 has divisor 0 and evaluates to the error. -/
theorem C3_evaluate_divisor_witness :
    VarianceAccumulator.evaluate ⟨4, 0, 3, StatsType.Sample⟩ =
        Except.ok (some 2) ∧
      VarianceAccumulator.evaluate ⟨4, 0, 1, StatsType.Sample⟩ =
        Except.error "At least two values are needed to calculate variance" := by
  constructor
  · have h := (C3_evaluate_divisor ⟨4, 0, 3, StatsType.Sample⟩).2 (by decide)
    rw [h]
    norm_num [VarianceAccumulator.divisor]
  · exact (C3_evaluate_divisor ⟨4, 0, 1, StatsType.Sample⟩).1 (by decide)

theorem merge_eq_mergeSpec (acc : VarianceAccumulator) (c2 : ℕ)
    (mean2 m22 : ℚ) : acc.merge c2 mean2 m22 = mergeSpec acc c2 mean2 m22 := by
  obtain ⟨am2, amean, acount, ast⟩ := acc
  unfold VarianceAccumulator.merge mergeSpec
  by_cases h2 : c2 = 0
  · simp [h2]
  · by_cases h1 : acount = 0
    · simp [h2, h1]
    · simp only [h2, h1, if_false, VarianceAccumulator.mk.injEq]
      refine ⟨by ring, by ring, trivial, trivial⟩

theorem mergeOne_eq_mergeSpec (acc : VarianceAccumulator)
    (hinv : emptyInv acc) (s : ℕ × ℚ × ℚ) :
    acc.mergeOne s = mergeSpec acc s.1 s.2.1 s.2.2 := by
  obtain ⟨am2, amean, acount, ast⟩ := acc
  obtain ⟨c2, mean2, m22⟩ := s
  unfold VarianceAccumulator.mergeOne mergeSpec
  by_cases h2 : c2 = 0
  · simp [h2]
  · by_cases h1 : acount = 0
    · obtain ⟨hm, hm2⟩ := hinv h1
      have hc2 : (c2 : ℚ) ≠ 0 := Nat.cast_ne_zero.mpr h2
      subst h1
      change amean = 0 at hm
      change am2 = 0 at hm2
      subst hm
      subst hm2
      simp only [h2, if_false, if_true, VarianceAccumulator.mk.injEq]
      refine ⟨?_, ?_, ?_⟩
      · push_cast; ring
      · push_cast; field_simp
      · simp
    · simp only [h2, h1, if_false, VarianceAccumulator.mk.injEq]
      refine ⟨by ring, by ring, trivial, trivial⟩

theorem mergeOne_emptyInv (acc : VarianceAccumulator) (hinv : emptyInv acc)
    (s : ℕ × ℚ × ℚ) : emptyInv (acc.mergeOne s) := by
  intro hc
  by_cases h2 : s.1 = 0
  · have heq : acc.mergeOne s = acc := by
      simp [VarianceAccumulator.mergeOne, h2]
    rw [heq] at hc ⊢
    exact hinv hc
  · exfalso
    have heq : (acc.mergeOne s).count = acc.count + s.1 := by
      simp [VarianceAccumulator.mergeOne, h2]
    rw [heq] at hc
    omega

theorem merge_batch_eq_foldl_mergeSpec (states : List (ℕ × ℚ × ℚ)) :
    ∀ acc : VarianceAccumulator, emptyInv acc →
      acc.merge_batch states =
        states.foldl (fun a s => mergeSpec a s.1 s.2.1 s.2.2) acc := by
  induction states with
  | nil => intro acc _; rfl
  | cons s rest ih =>
    intro acc hinv
    show (acc.mergeOne s).merge_batch rest = _
    rw [ih (acc.mergeOne s) (mergeOne_emptyInv acc hinv s),
      mergeOne_eq_mergeSpec acc hinv s]
    rfl

/-- C6: `merge` is exactly the specification's three-case combination
(skip on empty incoming state, absorb verbatim into an empty accumulator,
else the Chan formulas with `mean = (mean1*c1 + mean2*c2)/c` and
`m2 = m21 + m22 + (mean1 - mean2)^2 * (c1*c2/c)`), and `merge_batch`
applies that combination to each state row in order.  The hypothesis is
the documented state invariant: an empty accumulator has zero mean and
zero m2. -/
theorem C6_merge_matches_spec (acc : VarianceAccumulator)
    (hinv : emptyInv acc) :
    (∀ (c2 : ℕ) (mean2 m22 : ℚ),
        acc.merge c2 mean2 m22 = mergeSpec acc c2 mean2 m22) ∧
      ∀ states : List (ℕ × ℚ × ℚ),
        acc.merge_batch states =
          states.foldl (fun a s => mergeSpec a s.1 s.2.1 s.2.2) acc :=
  ⟨fun c2 mean2 m22 => merge_eq_mergeSpec acc c2 mean2 m22,
    fun states => merge_batch_eq_foldl_mergeSpec states acc hinv⟩

/-- Witness for C6 at a concrete accumulator and state row. -/
theorem C6_merge_matches_spec_witness :
    VarianceAccumulator.merge ⟨2, 3, 2, StatsType.Sample⟩ 2 5 4 =
        mergeSpec ⟨2, 3, 2, StatsType.Sample⟩ 2 5 4 ∧
      VarianceAccumulator.merge_batch ⟨2, 3, 2, StatsType.Sample⟩ [(2, 5, 4)] =
        [((2 : ℕ), (5 : ℚ), (4 : ℚ))].foldl
          (fun a s => mergeSpec a s.1 s.2.1 s.2.2) ⟨2, 3, 2, StatsType.Sample⟩ :=
  ⟨(C6_merge_matches_spec ⟨2, 3, 2, StatsType.Sample⟩
      (by intro h; exact absurd h (by decide))).1 2 5 4,
    (C6_merge_matches_spec ⟨2, 3, 2, StatsType.Sample⟩
      (by intro h; exact absurd h (by decide))).2 [(2, 5, 4)]⟩

/-- C7 counterexample: a null array slot whose stored value is nonzero is
*not* skipped by `update_batch` — the source's skip condition is
`value == 0_f64 && values.is_null(i)`, so the slot `(1, null)` is fed to
the Welford step and the state changes, where the claim says every null
element leaves the state unchanged. -/
theorem C7_counterexample :
    (VarianceAccumulator.update_batch ⟨0, 0, 0, StatsType.Sample⟩
          [(1, true)]).count = 1 ∧
      VarianceAccumulator.update_batch ⟨0, 0, 0, StatsType.Sample⟩
          [(1, true)] ≠ ⟨0, 0, 0, StatsType.Sample⟩ := by
  constructor
  · rfl
  · intro h
    have : (VarianceAccumulator.update_batch ⟨0, 0, 0, StatsType.Sample⟩
        [(1, true)]).count = 0 := by rw [h]
    simp [VarianceAccumulator.update_batch, VarianceAccumulator.updateOne] at this

theorem updateOne_eq_welfordSpecStep (acc : VarianceAccumulator)
    (e : ℚ × Bool) :
    acc.updateOne e =
      if e.1 = 0 ∧ e.2 = true then acc else welfordSpecStep acc e.1 := by
  obtain ⟨am2, amean, acount, ast⟩ := acc
  unfold VarianceAccumulator.updateOne welfordSpecStep
  by_cases h : e.1 = 0 ∧ e.2 = true
  · simp [h]
  · simp only [h, if_false, VarianceAccumulator.mk.injEq]
    refine ⟨by ring, by ring, trivial, trivial⟩

/-- C7 (amended): `update_batch` visits the post-cast slots in order and
applies exactly the specification's Welford step to every slot *except*
those that are null **and** store the value 0 (the source's skip
condition); in particular every non-null element gets the Welford step,
but a null slot with a nonzero stored value is treated as that value
rather than skipped. -/
theorem C7_update_batch_formula (acc : VarianceAccumulator)
    (values : List (ℚ × Bool)) :
    acc.update_batch values =
      values.foldl
        (fun a e => if e.1 = 0 ∧ e.2 = true then a else welfordSpecStep a e.1)
        acc := by
  unfold VarianceAccumulator.update_batch
  congr 1
  funext a e
  exact updateOne_eq_welfordSpecStep a e

end VarianceTheorems

section SinkTheorems

theorem ShuffleWriter.write_ok_counts (w : ShuffleWriter) (b : SinkBatch)
    (io : Bool) (w2 : ShuffleWriter) (h : w.write b io = Except.ok w2) :
    w2.num_batches = w.num_batches + 1 ∧
      w2.num_rows = w.num_rows + b.numRows ∧
      w2.num_bytes = w.num_bytes + b.bytes := by
  cases w with
  | File fw =>
    cases io with
    | false => simp [ShuffleWriter.write, FileShuffleWriter.write, Except.map] at h
    | true =>
      simp [ShuffleWriter.write, FileShuffleWriter.write, Except.map] at h
      subst h
      simp [ShuffleWriter.num_batches, ShuffleWriter.num_rows,
        ShuffleWriter.num_bytes]
  | Flight fw =>
    simp [ShuffleWriter.write, FlightShuffleWriter.write, Except.map] at h
    subst h
    simp [ShuffleWriter.num_batches, ShuffleWriter.num_rows,
      ShuffleWriter.num_bytes]
  | Local lw =>
    simp [ShuffleWriter.write, LocalShuffleWriter.write, Except.map] at h
    subst h
    simp [ShuffleWriter.num_batches, ShuffleWriter.num_rows,
      ShuffleWriter.num_bytes]

theorem writeSeq_counts (calls : List (SinkBatch × Bool)) :
    ∀ w : ShuffleWriter,
      (writeSeq w calls).1.num_batches =
          w.num_batches + (writeSeq w calls).2.length ∧
        (writeSeq w calls).1.num_rows =
          w.num_rows + ((writeSeq w calls).2.map SinkBatch.numRows).sum ∧
        (writeSeq w calls).1.num_bytes =
          w.num_bytes + ((writeSeq w calls).2.map SinkBatch.bytes).sum := by
  induction calls with
  | nil => intro w; simp [writeSeq]
  | cons c rest ih =>
    intro w
    cases hw : w.write c.1 c.2 with
    | ok w2 =>
      have hc := ShuffleWriter.write_ok_counts w c.1 c.2 w2 hw
      have hr := ih w2
      simp only [writeSeq, hw, List.length_cons, List.map_cons, List.sum_cons]
      omega
    | error e =>
      simpa only [writeSeq, hw] using ih w

/-- C8: for every sink variant (File, Flight, Local) started fresh from
its constructor, after any sequence of `write` calls the counters satisfy:
`num_batches` is the number of successful writes, `num_rows` is the sum of
the row counts of the successfully written batches, and `num_bytes` is the
sum over those batches of their per-column in-memory array sizes. -/
theorem C8_sink_counters (path : String) (calls : List (SinkBatch × Bool)) :
    (∀ w0 ∈ [ShuffleWriter.File (FileShuffleWriter.new path),
        ShuffleWriter.Flight FlightShuffleWriter.new,
        ShuffleWriter.Local LocalShuffleWriter.new],
      (writeSeq w0 calls).1.num_batches = (writeSeq w0 calls).2.length ∧
        (writeSeq w0 calls).1.num_rows =
          ((writeSeq w0 calls).2.map SinkBatch.numRows).sum ∧
        (writeSeq w0 calls).1.num_bytes =
          ((writeSeq w0 calls).2.map SinkBatch.bytes).sum) := by
  intro w0 hw0
  have h := writeSeq_counts calls w0
  have hz : w0.num_batches = 0 ∧ w0.num_rows = 0 ∧ w0.num_bytes = 0 := by
    simp only [List.mem_cons, List.not_mem_nil, or_false] at hw0
    rcases hw0 with rfl | rfl | rfl <;> exact ⟨rfl, rfl, rfl⟩
  omega

/-- Witness for C8: a fresh Flight sink after one delivered and one
dropped-receiver write counts both batches. -/
theorem C8_sink_counters_witness :
    (writeSeq (ShuffleWriter.Flight FlightShuffleWriter.new)
          [(⟨2, [3]⟩, true), (⟨1, [4]⟩, false)]).1.num_batches =
        (writeSeq (ShuffleWriter.Flight FlightShuffleWriter.new)
          [(⟨2, [3]⟩, true), (⟨1, [4]⟩, false)]).2.length ∧
      (writeSeq (ShuffleWriter.Flight FlightShuffleWriter.new)
          [(⟨2, [3]⟩, true), (⟨1, [4]⟩, false)]).1.num_rows =
        ((writeSeq (ShuffleWriter.Flight FlightShuffleWriter.new)
          [(⟨2, [3]⟩, true), (⟨1, [4]⟩, false)]).2.map
            SinkBatch.numRows).sum ∧
      (writeSeq (ShuffleWriter.Flight FlightShuffleWriter.new)
          [(⟨2, [3]⟩, true), (⟨1, [4]⟩, false)]).1.num_bytes =
        ((writeSeq (ShuffleWriter.Flight FlightShuffleWriter.new)
          [(⟨2, [3]⟩, true), (⟨1, [4]⟩, false)]).2.map
            SinkBatch.bytes).sum :=
  C8_sink_counters "p" [(⟨2, [3]⟩, true), (⟨1, [4]⟩, false)]
    (ShuffleWriter.Flight FlightShuffleWriter.new) (by decide)

/-- C10: for the Flight and Local variants, `write` with the channel
receiver gone (`recvAlive = false`) still returns `Ok`, the send error is
discarded, and all three counters are incremented for the batch — only
the delivered list stays unchanged. -/
theorem C10_send_failure_swallowed (fw : FlightShuffleWriter)
    (lw : LocalShuffleWriter) (b : SinkBatch) :
    fw.write b false =
        Except.ok
          { fw with
              num_batches := fw.num_batches + 1
              num_rows := fw.num_rows + b.numRows
              num_bytes := fw.num_bytes + b.bytes
              sent := fw.sent } ∧
      lw.write b false =
        Except.ok
          { lw with
              num_batches := lw.num_batches + 1
              num_rows := lw.num_rows + b.numRows
              num_bytes := lw.num_bytes + b.bytes
              sent := lw.sent } :=
  ⟨rfl, rfl⟩

end SinkTheorems

section ShuffleLemmas

theorem getD_set_self {α : Type _} (l : List α) (p : ℕ) (v d : α)
    (h : p < l.length) : (l.set p v).getD p d = v := by
  induction l generalizing p with
  | nil => simp at h
  | cons a t ih =>
    cases p with
    | zero => rfl
    | succ q => exact ih q (by simpa using h)

theorem getD_set_ne {α : Type _} (l : List α) (p q : ℕ) (v d : α)
    (h : q ≠ p) : (l.set p v).getD q d = l.getD q d := by
  induction l generalizing p q with
  | nil => rfl
  | cons a t ih =>
    cases p with
    | zero =>
      cases q with
      | zero => exact absurd rfl h
      | succ q2 => rfl
    | succ p2 =>
      cases q with
      | zero => rfl
      | succ q2 => exact ih p2 q2 (fun he => h (by rw [he]))

theorem length_foldl_pushIdx (n : ℕ) (pairs : List (ℕ × ℕ)) :
    ∀ acc : List (List ℕ),
      (pairs.foldl (pushIdx n) acc).length = acc.length := by
  induction pairs with
  | nil => intro acc; rfl
  | cons q rest ih =>
    intro acc
    rw [List.foldl_cons, ih]
    simp [pushIdx]

theorem buildIndices_length (hashes : List ℕ) (n : ℕ) :
    (buildIndices hashes n).length = n := by
  unfold buildIndices
  rw [length_foldl_pushIdx]
  simp

theorem foldl_pushIdx_getD (n : ℕ) (pairs : List (ℕ × ℕ)) :
    ∀ (acc : List (List ℕ)) (p : ℕ), acc.length = n → p < n →
      (pairs.foldl (pushIdx n) acc).getD p [] =
        acc.getD p [] ++
          (pairs.filter (fun q => q.2 % n = p)).map Prod.fst := by
  induction pairs with
  | nil => intro acc p _ _; simp
  | cons q rest ih =>
    intro acc p hlen hp
    rw [List.foldl_cons,
      ih (pushIdx n acc q) p (by simp [pushIdx, hlen]) hp]
    by_cases hq : q.2 % n = p
    · have hset : (pushIdx n acc q).getD p [] = acc.getD p [] ++ [q.1] := by
        unfold pushIdx
        rw [hq, getD_set_self _ _ _ _ (by rw [hlen]; exact hp)]
      rw [hset]
      simp [List.filter_cons, hq]
    · have hset : (pushIdx n acc q).getD p [] = acc.getD p [] := by
        unfold pushIdx
        exact getD_set_ne _ _ _ _ _ (fun he => hq he.symm)
      rw [hset]
      simp [List.filter_cons, hq]

theorem buildIndices_getD (hashes : List ℕ) (n p : ℕ) (hp : p < n) :
    (buildIndices hashes n).getD p [] =
      (hashes.enum.filter (fun q => q.2 % n = p)).map Prod.fst := by
  unfold buildIndices
  rw [foldl_pushIdx_getD n _ _ p (by simp) hp]
  have hrep : (List.replicate n ([] : List ℕ)).getD p [] = [] := by
    rw [List.getD_eq_get _ _ (by simpa using hp)]
    simp
  rw [hrep, List.nil_append]

theorem join_set_append {α : Type _} (acc : List (List α)) (j : ℕ) (v : α)
    (hj : j < acc.length) :
    ((acc.set j (acc.getD j [] ++ [v])).join : Multiset α) =
      (acc.join : Multiset α) + {v} := by
  induction acc generalizing j with
  | nil => simp at hj
  | cons L rest ih =>
    cases j with
    | zero =>
      simp only [List.set_cons_zero, List.getD_cons_zero, List.join_cons]
      rw [← Multiset.coe_singleton, Multiset.coe_add, Multiset.coe_eq_coe,
        List.append_assoc, List.append_assoc]
      exact List.Perm.append_left L List.perm_append_comm
    | succ j2 =>
      simp only [List.set_cons_succ, List.getD_cons_succ, List.join_cons]
      have h := ih j2 (by simpa using hj)
      rw [← Multiset.coe_singleton, Multiset.coe_add, Multiset.coe_eq_coe]
        at h ⊢
      rw [List.append_assoc]
      exact List.Perm.append_left L h

theorem foldl_pushIdx_join (n : ℕ) (hn : 0 < n) (pairs : List (ℕ × ℕ)) :
    ∀ acc : List (List ℕ), acc.length = n →
      ((pairs.foldl (pushIdx n) acc).join : Multiset ℕ) =
        (acc.join : Multiset ℕ) + (pairs.map Prod.fst : List ℕ) := by
  induction pairs with
  | nil => intro acc _; simp
  | cons q rest ih =>
    intro acc hlen
    rw [List.foldl_cons, ih _ (by simp [pushIdx, hlen])]
    unfold pushIdx
    rw [join_set_append _ _ _ (by rw [hlen]; exact Nat.mod_lt _ hn)]
    simp only [List.map_cons, ← Multiset.coe_singleton, Multiset.coe_add]
    rw [Multiset.coe_eq_coe, List.append_assoc, List.singleton_append]

theorem buildIndices_join (hashes : List ℕ) (n : ℕ) (hn : 0 < n) :
    ((buildIndices hashes n).join : Multiset ℕ) =
      (List.range hashes.length : List ℕ) := by
  unfold buildIndices
  rw [foldl_pushIdx_join n hn _ _ (by simp)]
  have hrep : (List.replicate n ([] : List ℕ)).join = [] := by
    induction n with
    | zero => rfl
    | succ k ihk => simpa using ihk
  rw [hrep, List.enum_map_fst]
  simp

theorem foldl_pushIdx_mem_bound (n : ℕ) (P : ℕ → Prop)
    (pairs : List (ℕ × ℕ)) :
    ∀ acc : List (List ℕ), (∀ L ∈ acc, ∀ i ∈ L, P i) →
      (∀ q ∈ pairs, P q.1) →
      ∀ L ∈ pairs.foldl (pushIdx n) acc, ∀ i ∈ L, P i := by
  induction pairs with
  | nil => intro acc hacc _; simpa using hacc
  | cons q rest ih =>
    intro acc hacc hp
    rw [List.foldl_cons]
    apply ih
    · intro L hL i hi
      unfold pushIdx at hL
      rcases List.mem_or_eq_of_mem_set hL with h | h
      · exact hacc L h i hi
      · subst h
        rcases List.mem_append.mp hi with h | h
        · by_cases hj : q.2 % n < acc.length
          · have hmem : acc.getD (q.2 % n) [] ∈ acc := by
              rw [List.getD_eq_get _ _ hj]
              exact List.get_mem acc _ hj
            exact hacc _ hmem i h
          · rw [List.getD_eq_default _ _ (le_of_not_lt hj)] at h
            simp at h
        · have : i = q.1 := by simpa using h
          subst this
          exact hp q (List.mem_cons_self q rest)
    · intro q2 hq2
      exact hp q2 (List.mem_cons_of_mem q hq2)

theorem buildIndices_mem_bound (hashes : List ℕ) (n : ℕ) :
    ∀ L ∈ buildIndices hashes n, ∀ i ∈ L, i < hashes.length := by
  apply foldl_pushIdx_mem_bound
  · intro L hL i hi
    have := List.eq_of_mem_replicate hL
    subst this
    simp at hi
  · intro q hq
    have hmem : q.1 ∈ hashes.enum.map Prod.fst := List.mem_map_of_mem _ hq
    rw [List.enum_map_fst] at hmem
    exact List.mem_range.mp hmem

theorem takeRows_eq {Row : Type} [Inhabited Row] (rows : List Row)
    (idx : List ℕ) (hb : ∀ i ∈ idx, i < rows.length) :
    takeRows rows idx =
      Except.ok (idx.map fun i => rows.getD i default) := by
  induction idx with
  | nil => rfl
  | cons i rest ih =>
    have hi : i < rows.length := hb i (List.mem_cons_self i rest)
    have hget : rows.get? i = some (rows.getD i default) := by
      rw [List.get?_eq_get hi, List.getD_eq_get _ _ hi]
    unfold takeRows
    rw [hget, ih (fun j hj => hb j (List.mem_cons_of_mem i hj))]
    rfl

theorem totalWrittenRows_set {Row : Type}
    (ws : List (Option (ExecWriter Row))) (p : ℕ)
    (v : Option (ExecWriter Row)) (hp : p < ws.length) :
    totalWrittenRows (ws.set p v) + writerRows (ws.getD p none) =
      totalWrittenRows ws + writerRows v := by
  induction ws generalizing p with
  | nil => simp at hp
  | cons w rest ih =>
    cases p with
    | zero =>
      simp only [List.set_cons_zero, List.getD_cons_zero, totalWrittenRows,
        List.map_cons, List.sum_cons]
      rw [add_right_comm (writerRows v) _ (writerRows w),
        add_right_comm (writerRows w) _ (writerRows v),
        add_comm (writerRows v) (writerRows w)]
    | succ p2 =>
      simp only [List.set_cons_succ, List.getD_cons_succ, totalWrittenRows,
        List.map_cons, List.sum_cons]
      have h := ih p2 (by simpa using hp)
      rw [add_assoc, add_assoc]
      exact congrArg (writerRows w + ·) h

theorem total_replicate_none {Row : Type} (n : ℕ) :
    totalWrittenRows (List.replicate n (none : Option (ExecWriter Row))) =
      0 := by
  induction n with
  | zero => rfl
  | succ k ih =>
    simp only [List.replicate_succ, totalWrittenRows, List.map_cons,
      List.sum_cons] at ih ⊢
    simpa [writerRows] using ih

theorem map_getD_range {Row : Type} [Inhabited Row] (l : List Row) :
    (List.range l.length).map (fun i => l.getD i default) = l := by
  induction l with
  | nil => rfl
  | cons a t ih =>
    rw [List.length_cons, List.range_succ_eq_map, List.map_cons,
      List.map_map]
    refine congrArg₂ _ rfl ?_
    calc (List.range t.length).map
          ((fun i => (a :: t).getD i default) ∘ Nat.succ)
        = (List.range t.length).map (fun i => t.getD i default) := by
          refine List.map_congr_left fun i _ => ?_
          simp
      _ = t := ih

theorem createWriter_written {Row : Type} (loc : OutputLocation)
    (ls : Option (List ℕ)) (jobId : String) (stageId ip n p : ℕ)
    (w : ExecWriter Row)
    (h : createWriter loc ls jobId stageId ip n p = Except.ok w) :
    w.written = [] ∧ w.num_batches = 0 ∧ w.num_rows = 0 ∧
      w.num_bytes = 0 := by
  cases loc with
  | LocalDir workDir =>
    simp only [createWriter, Except.ok.injEq] at h
    subst h
    exact ⟨rfl, rfl, rfl, rfl⟩
  | Executors execs =>
    simp only [createWriter] at h
    split at h
    · split at h
      · split at h
        · simp only [Except.ok.injEq] at h
          subst h
          exact ⟨rfl, rfl, rfl, rfl⟩
        · cases h
      · simp only [Except.ok.injEq] at h
        subst h
        exact ⟨rfl, rfl, rfl, rfl⟩
    · cases h

theorem sum_map_coe_join {Row : Type} (g : ℕ → Row) (B : List (List ℕ)) :
    ((B.map fun idx => ((idx.map g : List Row) : Multiset Row)).sum) =
      ((B.join.map g : List Row) : Multiset Row) := by
  induction B with
  | nil => rfl
  | cons idx rest ih =>
    simp only [List.map_cons, List.sum_cons, List.join_cons,
      List.map_append, ih, Multiset.coe_add]

theorem hashStep_shape {Row : Type} (bytesOf : List Row → ℕ)
    (create : ℕ → Except String (ExecWriter Row)) (batch : List Row)
    (ws ws2 : List (Option (ExecWriter Row))) (pr : ℕ × List ℕ)
    (h : hashStep bytesOf create batch ws pr = Except.ok ws2) :
    pr.1 < ws.length ∧
      ∃ w2 : ExecWriter Row, ws2 = ws.set pr.1 (some w2) := by
  unfold hashStep at h
  cases ht : takeRows batch pr.2 with
  | error e => rw [ht] at h; cases h
  | ok out =>
    rw [ht] at h
    cases hg : ws.get? pr.1 with
    | none => rw [hg] at h; cases h
    | some ow =>
      rw [hg] at h
      have hplt : pr.1 < ws.length := by
        by_contra hc2
        rw [List.get?_eq_none.mpr (le_of_not_lt hc2)] at hg
        cases hg
      cases ow with
      | some w =>
        simp only [Except.ok.injEq] at h
        exact ⟨hplt, w.write bytesOf out, h.symm⟩
      | none =>
        cases hc : create pr.1 with
        | error e => rw [hc] at h; cases h
        | ok w =>
          rw [hc] at h
          simp only [Except.ok.injEq] at h
          exact ⟨hplt, w.write bytesOf out, h.symm⟩

theorem hashStep_total {Row : Type} [Inhabited Row]
    (bytesOf : List Row → ℕ)
    (create : ℕ → Except String (ExecWriter Row)) (batch : List Row)
    (ws ws2 : List (Option (ExecWriter Row))) (pr : ℕ × List ℕ)
    (hcreate : ∀ p w, create p = Except.ok w → w.written = [])
    (hidx : ∀ i ∈ pr.2, i < batch.length)
    (h : hashStep bytesOf create batch ws pr = Except.ok ws2) :
    totalWrittenRows ws2 =
      totalWrittenRows ws +
        ((pr.2.map fun i => batch.getD i default : List Row) :
          Multiset Row) := by
  have hout := takeRows_eq batch pr.2 hidx
  unfold hashStep at h
  rw [hout] at h
  cases hg : ws.get? pr.1 with
  | none => rw [hg] at h; cases h
  | some ow =>
    rw [hg] at h
    have hplt : pr.1 < ws.length := by
      by_contra hc2
      rw [List.get?_eq_none.mpr (le_of_not_lt hc2)] at hg
      cases hg
    have hgetD : ws.getD pr.1 none = ow := by
      rw [List.getD_eq_getD_get?, hg]
      rfl
    cases ow with
    | some w =>
      simp only [Except.ok.injEq] at h
      subst h
      have hset := totalWrittenRows_set ws pr.1
        (some ((w.write bytesOf (pr.2.map fun i => batch.getD i default))))
        hplt
      rw [hgetD] at hset
      have hwr : writerRows
          (some (w.write bytesOf (pr.2.map fun i => batch.getD i default))) =
          writerRows (some w) +
            ((pr.2.map fun i => batch.getD i default : List Row) :
              Multiset Row) := by
        simp only [writerRows, ExecWriter.write, List.join_append,
          List.join_cons]
        rw [← Multiset.coe_add]
        congr 1
        simp
      rw [hwr] at hset
      refine add_right_cancel (b := writerRows (some w)) ?_
      rw [hset, add_right_comm]
      exact (add_assoc _ _ _).symm
    | none =>
      cases hc : create pr.1 with
      | error e => rw [hc] at h; cases h
      | ok w =>
        rw [hc] at h
        simp only [Except.ok.injEq] at h
        subst h
        have hset := totalWrittenRows_set ws pr.1
          (some ((w.write bytesOf (pr.2.map fun i => batch.getD i default))))
          hplt
        rw [hgetD] at hset
        have hwzero : w.written = [] := hcreate pr.1 w hc
        have hwr : writerRows
            (some (w.write bytesOf
              (pr.2.map fun i => batch.getD i default))) =
            ((pr.2.map fun i => batch.getD i default : List Row) :
              Multiset Row) := by
          simp only [writerRows, ExecWriter.write, hwzero, List.nil_append,
            List.join_cons]
          simp
        rw [hwr] at hset
        simpa [writerRows] using hset

theorem hashLoop_total {Row : Type} [Inhabited Row]
    (bytesOf : List Row → ℕ)
    (create : ℕ → Except String (ExecWriter Row)) (batch : List Row)
    (hcreate : ∀ p w, create p = Except.ok w → w.written = [])
    (en : List (ℕ × List ℕ)) :
    ∀ ws ws2 : List (Option (ExecWriter Row)),
      (∀ pr ∈ en, ∀ i ∈ pr.2, i < batch.length) →
      hashLoop bytesOf create batch ws en = Except.ok ws2 →
      ws2.length = ws.length ∧
        totalWrittenRows ws2 =
          totalWrittenRows ws +
            ((en.map fun pr =>
              ((pr.2.map fun i => batch.getD i default : List Row) :
                Multiset Row)).sum) := by
  induction en with
  | nil =>
    intro ws ws2 _ h
    unfold hashLoop at h
    simp only [Except.ok.injEq] at h
    subst h
    simp
  | cons pr rest ih =>
    intro ws ws2 hb h
    unfold hashLoop at h
    cases hs : hashStep bytesOf create batch ws pr with
    | error e => rw [hs] at h; cases h
    | ok wsm =>
      rw [hs] at h
      have hshape := hashStep_shape bytesOf create batch ws wsm pr hs
      have hlen : wsm.length = ws.length := by
        obtain ⟨-, w2, hw2⟩ := hshape
        rw [hw2, List.length_set]
      have h1 := hashStep_total bytesOf create batch ws wsm pr hcreate
        (hb pr (List.mem_cons_self pr rest)) hs
      have h2 := ih wsm ws2
        (fun q hq => hb q (List.mem_cons_of_mem pr hq)) h
      refine ⟨by rw [h2.1, hlen], ?_⟩
      rw [h2.2, h1, List.map_cons, List.sum_cons, add_assoc]

theorem processBatch_total {Row : Type} [Inhabited Row]
    (bytesOf : List Row → ℕ)
    (create : ℕ → Except String (ExecWriter Row)) (hashRow : Row → ℕ)
    (n : ℕ) (hn : 0 < n)
    (hcreate : ∀ p w, create p = Except.ok w → w.written = [])
    (ws ws2 : List (Option (ExecWriter Row))) (batch : List Row)
    (h : processBatch bytesOf create hashRow n ws batch = Except.ok ws2) :
    ws2.length = ws.length ∧
      totalWrittenRows ws2 = totalWrittenRows ws + (batch : Multiset Row) := by
  unfold processBatch at h
  have hb : ∀ pr ∈ (buildIndices (batch.map hashRow) n).enum,
      ∀ i ∈ pr.2, i < batch.length := by
    intro pr hpr i hi
    have hsnd : pr.2 ∈ buildIndices (batch.map hashRow) n := by
      have hm : pr.2 ∈ (buildIndices (batch.map hashRow) n).enum.map
          Prod.snd := List.mem_map_of_mem _ hpr
      rwa [List.enum_map_snd] at hm
    have := buildIndices_mem_bound (batch.map hashRow) n pr.2 hsnd i hi
    simpa using this
  have h12 := hashLoop_total bytesOf create batch hcreate
    (buildIndices (batch.map hashRow) n).enum ws ws2 hb h
  refine ⟨h12.1, ?_⟩
  rw [h12.2]
  congr 1
  have hmm : ((buildIndices (batch.map hashRow) n).enum.map fun pr =>
      ((pr.2.map fun i => batch.getD i default : List Row) :
        Multiset Row)) =
      ((buildIndices (batch.map hashRow) n).map fun idx =>
        ((idx.map fun i => batch.getD i default : List Row) :
          Multiset Row)) := by
    conv_rhs =>
      rw [← List.enum_map_snd (buildIndices (batch.map hashRow) n)]
    rw [List.map_map]
    rfl
  rw [hmm, sum_map_coe_join]
  have hperm : (buildIndices (batch.map hashRow) n).join.Perm
      (List.range batch.length) := by
    have := buildIndices_join (batch.map hashRow) n hn
    rw [List.length_map] at this
    exact Multiset.coe_eq_coe.mp this
  calc (((buildIndices (batch.map hashRow) n).join.map
          fun i => batch.getD i default : List Row) : Multiset Row)
      = (((List.range batch.length).map fun i => batch.getD i default :
          List Row) : Multiset Row) :=
        Multiset.coe_eq_coe.mpr (hperm.map _)
    _ = (batch : Multiset Row) := by rw [map_getD_range]

theorem writeLoop_total {Row : Type} [Inhabited Row]
    (bytesOf : List Row → ℕ)
    (create : ℕ → Except String (ExecWriter Row)) (hashRow : Row → ℕ)
    (n : ℕ) (hn : 0 < n)
    (hcreate : ∀ p w, create p = Except.ok w → w.written = []) :
    ∀ (batches : List (List Row)) (ws ws2 : List (Option (ExecWriter Row))),
      writeLoop bytesOf create hashRow n ws batches = Except.ok ws2 →
      ws2.length = ws.length ∧
        totalWrittenRows ws2 =
          totalWrittenRows ws + (batches.join : Multiset Row) := by
  intro batches
  induction batches with
  | nil =>
    intro ws ws2 h
    unfold writeLoop at h
    simp only [Except.ok.injEq] at h
    subst h
    simp
  | cons b rest ih =>
    intro ws ws2 h
    unfold writeLoop at h
    cases hp : processBatch bytesOf create hashRow n ws b with
    | error e => rw [hp] at h; cases h
    | ok wsm =>
      rw [hp] at h
      have h1 := processBatch_total bytesOf create hashRow n hn hcreate
        ws wsm b hp
      have h2 := ih wsm ws2 h
      refine ⟨by rw [h2.1, h1.1], ?_⟩
      rw [h2.2, h1.2, add_assoc, Multiset.coe_add]
      rfl

theorem hashLoop_length {Row : Type} (bytesOf : List Row → ℕ)
    (create : ℕ → Except String (ExecWriter Row)) (batch : List Row)
    (en : List (ℕ × List ℕ)) :
    ∀ ws ws2 : List (Option (ExecWriter Row)),
      hashLoop bytesOf create batch ws en = Except.ok ws2 →
      ws2.length = ws.length := by
  induction en with
  | nil =>
    intro ws ws2 h
    unfold hashLoop at h
    simp only [Except.ok.injEq] at h
    rw [← h]
  | cons pr rest ih =>
    intro ws ws2 h
    unfold hashLoop at h
    cases hs : hashStep bytesOf create batch ws pr with
    | error e => rw [hs] at h; cases h
    | ok wsm =>
      rw [hs] at h
      obtain ⟨-, w2, hw2⟩ := hashStep_shape bytesOf create batch ws wsm pr hs
      rw [ih wsm ws2 h, hw2, List.length_set]

theorem processBatch_length {Row : Type} (bytesOf : List Row → ℕ)
    (create : ℕ → Except String (ExecWriter Row)) (hashRow : Row → ℕ)
    (n : ℕ) (ws ws2 : List (Option (ExecWriter Row))) (batch : List Row)
    (h : processBatch bytesOf create hashRow n ws batch = Except.ok ws2) :
    ws2.length = ws.length :=
  hashLoop_length bytesOf create batch _ ws ws2 h

theorem writeLoop_length {Row : Type} (bytesOf : List Row → ℕ)
    (create : ℕ → Except String (ExecWriter Row)) (hashRow : Row → ℕ)
    (n : ℕ) : ∀ (batches : List (List Row)) (ws ws2 : List (Option (ExecWriter Row))),
      writeLoop bytesOf create hashRow n ws batches = Except.ok ws2 →
      ws2.length = ws.length := by
  intro batches
  induction batches with
  | nil =>
    intro ws ws2 h
    unfold writeLoop at h
    simp only [Except.ok.injEq] at h
    rw [← h]
  | cons b rest ih =>
    intro ws ws2 h
    unfold writeLoop at h
    cases hp : processBatch bytesOf create hashRow n ws b with
    | error e => rw [hp] at h; cases h
    | ok wsm =>
      rw [hp] at h
      rw [ih wsm ws2 h,
        processBatch_length bytesOf create hashRow n ws wsm b hp]

theorem hashStep_some {Row : Type} (bytesOf : List Row → ℕ)
    (create : ℕ → Except String (ExecWriter Row)) (batch : List Row)
    (ws ws2 : List (Option (ExecWriter Row))) (pr : ℕ × List ℕ)
    (h : hashStep bytesOf create batch ws pr = Except.ok ws2) :
    (∀ q, (ws.getD q none).isSome → (ws2.getD q none).isSome) ∧
      (ws2.getD pr.1 none).isSome := by
  obtain ⟨hplt, w2, hw2⟩ := hashStep_shape bytesOf create batch ws ws2 pr h
  subst hw2
  constructor
  · intro q hq
    by_cases hqp : q = pr.1
    · subst hqp
      rw [getD_set_self _ _ _ _ hplt]
      rfl
    · rw [getD_set_ne _ _ _ _ _ hqp]
      exact hq
  · rw [getD_set_self _ _ _ _ hplt]
    rfl

theorem hashLoop_some {Row : Type} (bytesOf : List Row → ℕ)
    (create : ℕ → Except String (ExecWriter Row)) (batch : List Row)
    (en : List (ℕ × List ℕ)) :
    ∀ ws ws2 : List (Option (ExecWriter Row)),
      hashLoop bytesOf create batch ws en = Except.ok ws2 →
      ∀ q, ((∃ idx, (q, idx) ∈ en) ∨ (ws.getD q none).isSome) →
        (ws2.getD q none).isSome := by
  induction en with
  | nil =>
    intro ws ws2 h q hq
    unfold hashLoop at h
    simp only [Except.ok.injEq] at h
    subst h
    rcases hq with ⟨idx, hidx⟩ | hs
    · simp at hidx
    · exact hs
  | cons pr rest ih =>
    intro ws ws2 h q hq
    unfold hashLoop at h
    cases hs : hashStep bytesOf create batch ws pr with
    | error e => rw [hs] at h; cases h
    | ok wsm =>
      rw [hs] at h
      have hstep := hashStep_some bytesOf create batch ws wsm pr hs
      rcases hq with ⟨idx, hidx⟩ | hsome
      · rcases List.mem_cons.mp hidx with heq | hmem
        · have hq1 : pr.1 = q := congrArg Prod.fst heq.symm
          apply ih wsm ws2 h q
          right
          rw [← hq1]
          exact hstep.2
        · exact ih wsm ws2 h q (Or.inl ⟨idx, hmem⟩)
      · exact ih wsm ws2 h q (Or.inr (hstep.1 q hsome))

theorem processBatch_some {Row : Type} (bytesOf : List Row → ℕ)
    (create : ℕ → Except String (ExecWriter Row)) (hashRow : Row → ℕ)
    (n : ℕ) (ws ws2 : List (Option (ExecWriter Row))) (batch : List Row)
    (h : processBatch bytesOf create hashRow n ws batch = Except.ok ws2) :
    (∀ q, (ws.getD q none).isSome → (ws2.getD q none).isSome) ∧
      ∀ q, q < n → (ws2.getD q none).isSome := by
  unfold processBatch at h
  constructor
  · intro q hq
    exact hashLoop_some bytesOf create batch _ ws ws2 h q (Or.inr hq)
  · intro q hqn
    have hex : ∃ idx,
        (q, idx) ∈ (buildIndices (batch.map hashRow) n).enum := by
      have hq : q ∈ ((buildIndices (batch.map hashRow) n).enum.map
          Prod.fst) := by
        rw [List.enum_map_fst, buildIndices_length]
        exact List.mem_range.mpr hqn
      obtain ⟨pr, hpr, hfst⟩ := List.mem_map.mp hq
      subst hfst
      exact ⟨pr.2, by simpa using hpr⟩
    exact hashLoop_some bytesOf create batch _ ws ws2 h q (Or.inl hex)

theorem writeLoop_preserve {Row : Type} (bytesOf : List Row → ℕ)
    (create : ℕ → Except String (ExecWriter Row)) (hashRow : Row → ℕ)
    (n : ℕ) : ∀ (batches : List (List Row)) (ws ws2 : List (Option (ExecWriter Row))),
      writeLoop bytesOf create hashRow n ws batches = Except.ok ws2 →
      ∀ q, (ws.getD q none).isSome → (ws2.getD q none).isSome := by
  intro batches
  induction batches with
  | nil =>
    intro ws ws2 h q hq
    unfold writeLoop at h
    simp only [Except.ok.injEq] at h
    subst h
    exact hq
  | cons b rest ih =>
    intro ws ws2 h q hq
    unfold writeLoop at h
    cases hp : processBatch bytesOf create hashRow n ws b with
    | error e => rw [hp] at h; cases h
    | ok wsm =>
      rw [hp] at h
      exact ih wsm ws2 h q
        ((processBatch_some bytesOf create hashRow n ws wsm b hp).1 q hq)

theorem writeLoop_some {Row : Type} (bytesOf : List Row → ℕ)
    (create : ℕ → Except String (ExecWriter Row)) (hashRow : Row → ℕ)
    (n : ℕ) (batches : List (List Row))
    (ws ws2 : List (Option (ExecWriter Row))) (hne : batches ≠ [])
    (h : writeLoop bytesOf create hashRow n ws batches = Except.ok ws2) :
    ∀ q, q < n → (ws2.getD q none).isSome := by
  intro q hq
  cases batches with
  | nil => exact absurd rfl hne
  | cons b rest =>
    unfold writeLoop at h
    cases hp : processBatch bytesOf create hashRow n ws b with
    | error e => rw [hp] at h; cases h
    | ok wsm =>
      rw [hp] at h
      exact writeLoop_preserve bytesOf create hashRow n rest wsm ws2 h q
        ((processBatch_some bytesOf create hashRow n ws wsm b hp).2 q hq)

theorem recordsFrom_map_pid {Row : Type} :
    ∀ (ws : List (Option (ExecWriter Row))) (k : ℕ),
      (∀ q, q < ws.length → (ws.getD q none).isSome) →
      (recordsFrom k ws).map ShuffleWritePartition.partition_id =
        List.range' k ws.length := by
  intro ws
  induction ws with
  | nil => intro k _; rfl
  | cons ow rest ih =>
    intro k hall
    cases ow with
    | none =>
      have h0 := hall 0 (by simp)
      simp at h0
    | some w =>
      show (⟨k, w.path, w.num_batches, w.num_rows, w.num_bytes⟩ ::
          recordsFrom (k + 1) rest).map ShuffleWritePartition.partition_id =
        List.range' k (rest.length + 1)
      rw [List.map_cons, List.range'_succ,
        ih (k + 1) (fun q hq => hall (q + 1) (by simpa using hq))]

end ShuffleLemmas

section ShuffleClaims

/-- C1 counterexample: with `Hash(_, 2)` over a single one-row batch whose
row hashes to partition 0, partition 1 never receives a row, yet the hash
path creates a sink for it (an empty batch is taken and written — the
`num_rows() > 0` guard is commented out in the source) and the result
contains a `ShuffleWritePartition` with `partition_id = 1` and
`num_rows = 0`. -/
theorem C1_counterexample :
    execute_shuffle_write (some ⟨fun _ : ℕ => 0, 2⟩)
        (OutputLocation.LocalDir "wd") none "job" 1 0 (fun _ => 0)
        [[5]] =
      Except.ok
        [⟨0, "wd/job/1/0/data-0.arrow", 1, 1, 0⟩,
          ⟨1, "wd/job/1/1/data-0.arrow", 1, 0, 0⟩] := by
  rfl

/-- C1 (amended): once any input batch has been consumed, the hash path
holds a sink for *every* output partition `p < n` (partitions that
received no rows get sinks fed empty batches), and a successful
`execute_shuffle_write` returns exactly one record per output partition
`0, 1, …, n-1`, in order — not only for the partitions that received
rows.  Only an entirely empty input stream yields no sinks and an empty
record list. -/
theorem C1_records_cover_all_partitions {Row : Type}
    (hp : HashPartitioning Row) (loc : OutputLocation)
    (ls : Option (List ℕ)) (jobId : String) (stageId ip : ℕ)
    (bytesOf : List Row → ℕ) (batches : List (List Row))
    (recs : List ShuffleWritePartition) (hne : batches ≠ [])
    (h : execute_shuffle_write (some hp) loc ls jobId stageId ip bytesOf
        batches = Except.ok recs) :
    recs.map ShuffleWritePartition.partition_id = List.range hp.n := by
  simp only [execute_shuffle_write] at h
  cases hw : execHashWriters bytesOf
      (createWriter loc ls jobId stageId ip hp.n) hp.hashRow hp.n
      batches with
  | error e => rw [hw] at h; cases h
  | ok ws =>
    rw [hw] at h
    simp only [Except.ok.injEq] at h
    subst h
    unfold execHashWriters at hw
    have hlen : ws.length = hp.n := by
      rw [writeLoop_length bytesOf _ hp.hashRow hp.n batches _ ws hw,
        List.length_replicate]
    have hsome : ∀ q, q < ws.length → (ws.getD q none).isSome := by
      rw [hlen]
      exact writeLoop_some bytesOf _ hp.hashRow hp.n batches _ ws hne hw
    rw [recordsFrom_map_pid ws 0 hsome, hlen, List.range_eq_range']

/-- Witness for C1's amended theorem at the counterexample input. -/
theorem C1_records_cover_all_partitions_witness :
    ([⟨0, "wd/job/1/0/data-0.arrow", 1, 1, 0⟩,
        ⟨1, "wd/job/1/1/data-0.arrow", 1, 0, 0⟩] :
      List ShuffleWritePartition).map ShuffleWritePartition.partition_id =
      List.range 2 :=
  C1_records_cover_all_partitions ⟨fun _ : ℕ => 0, 2⟩
    (OutputLocation.LocalDir "wd") none "job" 1 0 (fun _ => 0) [[5]]
    _ (List.cons_ne_nil _ _) (by rfl)

/-- C4: for any hash partitioning and any input stream, a successful run
of the hash-repartitioning loop writes, across all output partitions,
exactly the multiset of rows of the consumed input: every input row is
appended to exactly one bucket and materialized by the take kernel into
exactly one written batch. -/
theorem C4_rows_preserved {Row : Type} [Inhabited Row]
    (hp : HashPartitioning Row) (loc : OutputLocation)
    (ls : Option (List ℕ)) (jobId : String) (stageId ip : ℕ)
    (bytesOf : List Row → ℕ) (batches : List (List Row))
    (ws : List (Option (ExecWriter Row))) (hn : 0 < hp.n)
    (h : execHashWriters bytesOf
        (createWriter loc ls jobId stageId ip hp.n) hp.hashRow hp.n
        batches = Except.ok ws) :
    totalWrittenRows ws = (batches.join : Multiset Row) := by
  unfold execHashWriters at h
  have hcreate : ∀ (p : ℕ) (w : ExecWriter Row),
      createWriter loc ls jobId stageId ip hp.n p = Except.ok w →
      w.written = [] :=
    fun p w hw =>
      (createWriter_written loc ls jobId stageId ip hp.n p w hw).1
  have hres := writeLoop_total bytesOf _ hp.hashRow hp.n hn hcreate
    batches _ ws h
  rw [hres.2, total_replicate_none, zero_add]

/-- Witness for C4 at a concrete three-row run hashed into two
partitions. -/
theorem C4_rows_preserved_witness :
    totalWrittenRows
        [some ⟨"wd/j/0/0/data-0.arrow", [[0, 2]], 1, 2, 0⟩,
          some ⟨"wd/j/0/1/data-0.arrow", [[1]], 1, 1, 0⟩] =
      (([[0, 1, 2]] : List (List ℕ)).join : Multiset ℕ) :=
  C4_rows_preserved ⟨fun r : ℕ => r, 2⟩ (OutputLocation.LocalDir "wd")
    none "j" 0 0 (fun _ => 0) [[0, 1, 2]] _ (by decide) (by rfl)

/-- C5: in the index-building loop, row `i` of a batch — whose combined
hash over the key expressions (with the fixed seed `(0,0,0,0)`) is
abstracted as `hashRow r` — is appended to bucket `hashRow r % n` and to
no other bucket: for every `p < n`, `i` lies in bucket `p` precisely when
`p = hashRow r % n`.  The assignment is thus a deterministic function of
the row's key values, the seed and `n` alone, identical across runs. -/
theorem C5_hash_assignment {Row : Type} (hashRow : Row → ℕ) (n : ℕ)
    (rows : List Row) (i : ℕ) (r : Row) (hn : 0 < n)
    (hi : rows.get? i = some r) :
    ∀ p, p < n →
      (i ∈ (buildIndices (rows.map hashRow) n).getD p [] ↔
        p = hashRow r % n) := by
  intro p hpn
  rw [buildIndices_getD _ _ _ hpn]
  constructor
  · intro hmem
    obtain ⟨q, hq, hqi⟩ := List.mem_map.mp hmem
    have hqf := List.mem_filter.mp hq
    have hpred : q.2 % n = p := by simpa using hqf.2
    have hget : (rows.map hashRow).get? q.1 = some q.2 :=
      List.mem_enum_iff_get?.mp hqf.1
    rw [hqi, List.get?_map, hi] at hget
    have hget2 : hashRow r = q.2 := by simpa using hget
    rw [← hpred, ← hget2]
  · intro hpeq
    subst hpeq
    apply List.mem_map.mpr
    refine ⟨(i, hashRow r), ?_, rfl⟩
    apply List.mem_filter.mpr
    refine ⟨?_, by simp⟩
    apply List.mem_enum_iff_get?.mpr
    show (rows.map hashRow).get? i = some (hashRow r)
    rw [List.get?_map, hi]
    rfl

/-- Witness for C5: the single row `5` under the identity hash with
`n = 3` lies in bucket `2 = 5 % 3` and in no other bucket. -/
theorem C5_hash_assignment_witness :
    ((0 : ℕ) ∈ (buildIndices ([5].map (fun r : ℕ => r)) 3).getD 2 [] ↔
        2 = (fun r : ℕ => r) 5 % 3) ∧
      ((0 : ℕ) ∈ (buildIndices ([5].map (fun r : ℕ => r)) 3).getD 0 [] ↔
        0 = (fun r : ℕ => r) 5 % 3) :=
  ⟨C5_hash_assignment (fun r : ℕ => r) 3 [5] 0 5 (by decide) rfl 2 (by decide),
    C5_hash_assignment (fun r : ℕ => r) 3 [5] 0 5 (by decide) rfl 0 (by decide)⟩

/-- C9: with no partitioning configured, a successful
`execute_shuffle_write` returns exactly one `ShuffleWritePartition`, whose
`partition_id` is the input partition index, for every `OutputLocation`
variant and any senders. -/
theorem C9_passthrough_single_record {Row : Type} (loc : OutputLocation)
    (ls : Option (List ℕ)) (jobId : String) (stageId ip : ℕ)
    (bytesOf : List Row → ℕ) (batches : List (List Row))
    (recs : List ShuffleWritePartition)
    (h : execute_shuffle_write none loc ls jobId stageId ip bytesOf
        batches = Except.ok recs) :
    recs.map ShuffleWritePartition.partition_id = [ip] := by
  cases loc with
  | LocalDir wd =>
    simp only [execute_shuffle_write, execPassThrough, Except.ok.injEq] at h
    subst h
    rfl
  | Executors execs =>
    simp only [execute_shuffle_write, execPassThrough] at h
    split at h
    · split at h
      · split at h
        · simp only [Except.ok.injEq] at h
          subst h
          rfl
        · cases h
      · simp only [Except.ok.injEq] at h
        subst h
        rfl
    · cases h

/-- Witness for C9 at a concrete pass-through run over a local
directory. -/
theorem C9_passthrough_single_record_witness :
    ([⟨0, "wd/j/0/0/data.arrow", 1, 2, 0⟩] :
      List ShuffleWritePartition).map ShuffleWritePartition.partition_id =
      [0] :=
  C9_passthrough_single_record (OutputLocation.LocalDir "wd") none "j" 0 0
    (fun _ : List ℕ => 0) [[1, 2]] _ (by rfl)

end ShuffleClaims

end DFVerify
